import Mathlib

/-!
Shallow embedding of the container-literal macros of `src/lib.rs`:
the sequence-literal expander `avec!` (list, trailing-comma and repeat
forms), the counting oracle `count!`, and the map-literal expander
`dict!`.

Element expressions are modelled as state transformers `σ → α × σ`, so
that evaluation order, evaluation count and side effects of the emitted
code are observable in the final state.  The runtime containers `Vec`
and `HashMap` are modelled with an explicit capacity and a reallocation
counter, mirroring `Vec::with_capacity` / `HashMap::with_capacity`,
`push`, `resize` and `insert`.
-/

set_option autoImplicit false

/-- A source element expression, modelled as a state transformer:
evaluating it once yields a value and a successor state (the state
captures any side effects of the expression). -/
def Expr (σ α : Type) : Type := σ → α × σ

/-- The internal `@SUBST` rule of `count!`: substitute an element
expression by unit.  The expression is never applied to a state, so it
is never evaluated. -/
def substUnit {σ α : Type} (_e : Expr σ α) : Unit := ()

/-- The counting oracle `count!`: build the placeholder array
`[(), (), …]` (one unit per element expression, via `@SUBST`) and take
its length, mirroring `<[()]>::len(&[…])`. -/
def count {σ α : Type} (es : List (Expr σ α)) : Nat :=
  (es.map substUnit).length

/-- Model of `std::vec::Vec`: the stored elements, the allocated
capacity, and a counter of reallocations performed since construction. -/
structure Vec (α : Type) where
  data : List α
  cap : Nat
  reallocs : Nat

/-- `Vec::with_capacity(n)`: empty data, capacity `n`, no reallocation
yet. -/
def Vec.withCapacity {α : Type} (n : Nat) : Vec α := ⟨[], n, 0⟩

/-- `Vec::push`: appends the element; if the vector is full this forces
a reallocation (amortised growth), recorded in `reallocs`. -/
def Vec.push {α : Type} (v : Vec α) (x : α) : Vec α :=
  if v.data.length < v.cap then
    { v with data := v.data ++ [x] }
  else
    { data := v.data ++ [x]
      cap := max (2 * v.cap) (v.data.length + 1)
      reallocs := v.reallocs + 1 }

/-- `Vec::resize(newLen, x)`: truncate when shrinking, otherwise extend
with copies of the single value `x`, reallocating only when the new
length exceeds the capacity. -/
def Vec.resize {α : Type} (v : Vec α) (newLen : Nat) (x : α) : Vec α :=
  if newLen ≤ v.data.length then
    { v with data := v.data.take newLen }
  else if newLen ≤ v.cap then
    { v with data := v.data ++ List.replicate (newLen - v.data.length) x }
  else
    { data := v.data ++ List.replicate (newLen - v.data.length) x
      cap := max (2 * v.cap) newLen
      reallocs := v.reallocs + 1 }

/-- The population loop of the list form: `$(vs.push($element);)*`.
Each element expression is evaluated once, in declaration order, and its
value pushed. -/
def pushAll {σ α : Type} (v : Vec α) (es : List (Expr σ α)) (s : σ) :
    Vec α × σ :=
  match es with
  | [] => (v, s)
  | e :: rest =>
    let p := e s
    pushAll (v.push p.1) rest p.2

/-- The list form `avec![e1, …, eN]`:
`const ELEM_COUNT = count![…]; let mut vs = Vec::with_capacity(ELEM_COUNT);
$(vs.push($element);)* vs`. -/
def avecList {σ α : Type} (es : List (Expr σ α)) (s : σ) : Vec α × σ :=
  let ELEM_COUNT : Nat := count es
  pushAll (Vec.withCapacity ELEM_COUNT) es s

/-- The trailing-comma form `avec![e1, …, eN,]`: delegates to the list
form, exactly as the macro arm `$crate::avec![$($element),*]` does. -/
def avecListTrailing {σ α : Type} (es : List (Expr σ α)) (s : σ) :
    Vec α × σ :=
  avecList es s

/-- The repeat form `avec![e; n]`:
`let count = $count; let mut vs = Vec::with_capacity(count);
vs.resize(count, $element); vs`.  The count expression is evaluated
once and bound first; the element expression is evaluated once, as the
argument of `resize`. -/
def avecRepeat {σ α : Type} (cnt : Expr σ Nat) (elem : Expr σ α) (s : σ) :
    Vec α × σ :=
  let p := cnt s
  let vs : Vec α := Vec.withCapacity p.1
  let q := elem p.2
  (vs.resize p.1 q.1, q.2)

/-- Model of `std::collections::HashMap`: the entries (with pairwise
distinct keys, in insertion order), the allocated capacity, and a
reallocation counter. -/
structure HashMap (κ ν : Type) where
  entries : List (κ × ν)
  cap : Nat
  reallocs : Nat

/-- `HashMap::with_capacity(n)`. -/
def HashMap.withCapacity {κ ν : Type} (n : Nat) : HashMap κ ν := ⟨[], n, 0⟩

/-- The keys of the map, in insertion order. -/
def HashMap.keys {κ ν : Type} (m : HashMap κ ν) : List κ :=
  m.entries.map Prod.fst

/-- `HashMap::len`. -/
def HashMap.len {κ ν : Type} (m : HashMap κ ν) : Nat := m.entries.length

/-- `HashMap::contains_key`. -/
def HashMap.containsKey {κ ν : Type} [DecidableEq κ] (m : HashMap κ ν)
    (k : κ) : Bool :=
  m.entries.any (fun p => p.1 = k)

/-- `HashMap::get`: look up the (unique) entry with the given key. -/
def HashMap.get? {κ ν : Type} [DecidableEq κ] (m : HashMap κ ν) (k : κ) :
    Option ν :=
  (m.entries.find? (fun p => decide (p.1 = k))).map Prod.snd

/-- `HashMap::insert`: if the key is present, overwrite its associated
value in place; otherwise append the pair, reallocating only when the
map is at capacity. -/
def HashMap.insert {κ ν : Type} [DecidableEq κ] (m : HashMap κ ν) (k : κ)
    (v : ν) : HashMap κ ν :=
  if m.containsKey k then
    { m with entries := m.entries.map (fun p => if p.1 = k then (p.1, v) else p) }
  else if m.len < m.cap then
    { m with entries := m.entries ++ [(k, v)] }
  else
    { entries := m.entries ++ [(k, v)]
      cap := max (2 * m.cap) (m.len + 1)
      reallocs := m.reallocs + 1 }

/-- The population loop of the map form: `$(hm.insert($key, $val);)*`.
For each pair, the key expression is evaluated, then the value
expression, then the pair is inserted; pairs in declaration order. -/
def insertAll {σ κ ν : Type} [DecidableEq κ] (m : HashMap κ ν)
    (ps : List (Expr σ κ × Expr σ ν)) (s : σ) : HashMap κ ν × σ :=
  match ps with
  | [] => (m, s)
  | (ke, ve) :: rest =>
    let pk := ke s
    let pv := ve pk.2
    insertAll (m.insert pk.1 pv.1) rest pv.2

/-- The map form `dict!{k1 => v1, …, kN => vN}`:
`const ELEM_COUNT = count![$($key),*];
let mut hm = HashMap::with_capacity(ELEM_COUNT);
$(hm.insert($key, $val);)* hm`.  The counting oracle is applied to the
key expressions. -/
def dictExpand {σ κ ν : Type} [DecidableEq κ]
    (ps : List (Expr σ κ × Expr σ ν)) (s : σ) : HashMap κ ν × σ :=
  let ELEM_COUNT : Nat := count (ps.map Prod.fst)
  insertAll (HashMap.withCapacity ELEM_COUNT) ps s

/-- The trailing-comma form `dict!{k1 => v1, …, kN => vN,}`: delegates
to the map form, exactly as the arm `$crate::dict![$($key => $val),*]`
does. -/
def dictExpandTrailing {σ κ ν : Type} [DecidableEq κ]
    (ps : List (Expr σ κ × Expr σ ν)) (s : σ) : HashMap κ ν × σ :=
  dictExpand ps s

/-- Specification-side evaluator: evaluate each element expression
exactly once, in declaration order, threading the state; return the
list of values and the final state. -/
def evalAll {σ α : Type} (es : List (Expr σ α)) (s : σ) : List α × σ :=
  match es with
  | [] => ([], s)
  | e :: rest =>
    let p := e s
    let q := evalAll rest p.2
    (p.1 :: q.1, q.2)

/-- Specification-side evaluator for pairs: for each pair evaluate the
key then the value, each exactly once, in declaration order. -/
def evalPairs {σ κ ν : Type} (ps : List (Expr σ κ × Expr σ ν)) (s : σ) :
    List (κ × ν) × σ :=
  match ps with
  | [] => ([], s)
  | (ke, ve) :: rest =>
    let pk := ke s
    let pv := ve pk.2
    let q := evalPairs rest pv.2
    ((pk.1, pv.1) :: q.1, q.2)

/-- Last-write-wins lookup in a list of evaluated pairs: the value of
the last occurrence of the key, in declaration order. -/
def lastLookup {κ ν : Type} [DecidableEq κ] :
    List (κ × ν) → κ → Option ν
  | [], _ => none
  | p :: rest, k =>
    match lastLookup rest k with
    | some v => some v
    | none => if p.1 = k then some p.2 else none

/-- Well-formedness of the `HashMap` model: the entry keys are pairwise
distinct (what a real hash map maintains). -/
def HashMap.WF {κ ν : Type} (m : HashMap κ ν) : Prop := m.keys.Nodup

/-- Pure counterpart of the map population loop: fold `insert` over a
list of already-evaluated pairs. -/
def insertFold {κ ν : Type} [DecidableEq κ] (m : HashMap κ ν)
    (l : List (κ × ν)) : HashMap κ ν :=
  l.foldl (fun acc p => acc.insert p.1 p.2) m

/-- Concrete pair list whose two keys evaluate to the same value,
exercising the duplicate-key policy. -/
def dupPairs : List (Expr Unit Nat × Expr Unit Nat) :=
  [(fun s => (1, s), fun s => (10, s)), (fun s => (1, s), fun s => (20, s))]

/-- Concrete pair list with pairwise distinct keys. -/
def distinctPairs : List (Expr Unit Nat × Expr Unit Nat) :=
  [(fun s => (1, s), fun s => (10, s)), (fun s => (2, s), fun s => (20, s))]

/-- Concrete count expression evaluating to 0 without a side effect. -/
def zeroCnt : Expr Nat Nat := fun s => (0, s)

/-- Concrete element expression with an observable side effect: it bumps
the state counter by one each time it is evaluated. -/
def bumpElem : Expr Nat Nat := fun s => (42, s + 1)

/-- C1: the counting oracle `count![e1, …, eN]` yields exactly `N`.  Its
type `List (Expr σ α) → Nat` takes no state, so no element expression
can be evaluated by it, and `N = 0` needs no special case. -/
theorem count_oracle_correct :
    ∀ (σ α : Type) (es : List (Expr σ α)), count es = es.length := by
  intro σ α es
  unfold count
  exact List.length_map es substUnit

theorem Vec.push_data {α : Type} (v : Vec α) (x : α) :
    (v.push x).data = v.data ++ [x] := by
  unfold Vec.push
  split <;> rfl

theorem Vec.push_stable {α : Type} (v : Vec α) (x : α)
    (h : v.data.length < v.cap) :
    (v.push x).cap = v.cap ∧ (v.push x).reallocs = v.reallocs := by
  unfold Vec.push
  rw [if_pos h]
  exact ⟨rfl, rfl⟩

theorem evalAll_length {σ α : Type} (es : List (Expr σ α)) (s : σ) :
    (evalAll es s).1.length = es.length := by
  induction es generalizing s with
  | nil => rfl
  | cons e rest ih => simp [evalAll, ih]

theorem pushAll_data_state {σ α : Type} (es : List (Expr σ α)) (v : Vec α)
    (s : σ) :
    (pushAll v es s).1.data = v.data ++ (evalAll es s).1 ∧
    (pushAll v es s).2 = (evalAll es s).2 := by
  induction es generalizing v s with
  | nil => simp [pushAll, evalAll]
  | cons e rest ih =>
    have h := ih (v.push (e s).1) (e s).2
    simp only [pushAll, evalAll]
    rw [h.1, h.2, Vec.push_data]
    simp

theorem pushAll_stable {σ α : Type} (es : List (Expr σ α)) (v : Vec α)
    (s : σ) (h : v.data.length + es.length ≤ v.cap) :
    (pushAll v es s).1.cap = v.cap ∧
    (pushAll v es s).1.reallocs = v.reallocs := by
  induction es generalizing v s with
  | nil => exact ⟨rfl, rfl⟩
  | cons e rest ih =>
    have hlt : v.data.length < v.cap := by
      simp only [List.length_cons] at h
      omega
    have hc := Vec.push_stable v (e s).1 hlt
    have hd : (v.push (e s).1).data.length = v.data.length + 1 := by
      rw [Vec.push_data]
      simp
    have hrec := ih (v.push (e s).1) (e s).2 (by
      rw [hd, hc.1]
      simp only [List.length_cons] at h
      omega)
    simp only [pushAll]
    rw [hrec.1, hrec.2, hc.1, hc.2]
    exact ⟨rfl, rfl⟩

/-- C2: the list form `avec![e1, …, eN]` produces a sequence of length
exactly `N` whose elements are the values of `e1, …, eN` in declaration
order; the final state shows each element expression was evaluated
exactly once, in that order. -/
theorem avecList_correct {σ α : Type} (es : List (Expr σ α)) (s : σ) :
    (avecList es s).1.data = (evalAll es s).1 ∧
    (avecList es s).1.data.length = es.length ∧
    (avecList es s).2 = (evalAll es s).2 := by
  have h := pushAll_data_state es (Vec.withCapacity (count es)) s
  unfold avecList
  refine ⟨?_, ?_, h.2⟩
  · rw [h.1]
    rfl
  · rw [h.1]
    simp [Vec.withCapacity, evalAll_length]

theorem resize_withCapacity {α : Type} (n : Nat) (x : α) :
    (Vec.withCapacity n).resize n x =
      ⟨List.replicate n x, n, 0⟩ := by
  cases n with
  | zero => rfl
  | succ m => simp [Vec.withCapacity, Vec.resize]

/-- C3: the repeat form `avec![e; n]` produces a sequence of length
exactly `n`, every element being the value of a single evaluation of
`e`; the final state shows `e` was evaluated exactly once, after the
single evaluation of `n`. -/
theorem avecRepeat_correct {σ α : Type} (cnt : Expr σ Nat)
    (elem : Expr σ α) (s : σ) :
    (avecRepeat cnt elem s).1.data =
      List.replicate (cnt s).1 (elem (cnt s).2).1 ∧
    (avecRepeat cnt elem s).1.data.length = (cnt s).1 ∧
    (avecRepeat cnt elem s).2 = (elem (cnt s).2).2 := by
  unfold avecRepeat
  simp [resize_withCapacity]

/-- C4: in the repeat form `avec![e; n]`, the count expression is
evaluated exactly once — the final state is the effect of `n` once,
then `e` once — and its bound value fixes the capacity before the
population step. -/
theorem avecRepeat_count_once {σ α : Type} (cnt : Expr σ Nat)
    (elem : Expr σ α) (s : σ) :
    (avecRepeat cnt elem s).2 = (elem (cnt s).2).2 ∧
    (avecRepeat cnt elem s).1.cap = (cnt s).1 ∧
    (avecRepeat cnt elem s).1.data.length = (cnt s).1 := by
  unfold avecRepeat
  simp [resize_withCapacity]

theorem count_eq_length {σ α : Type} (es : List (Expr σ α)) :
    count es = es.length :=
  List.length_map es substUnit

theorem map_update_fst {κ ν : Type} [DecidableEq κ] (l : List (κ × ν))
    (k : κ) (v : ν) :
    (l.map fun p => if p.1 = k then (p.1, v) else p).map Prod.fst =
      l.map Prod.fst := by
  induction l with
  | nil => rfl
  | cons p rest ih => by_cases h : p.1 = k <;> simp [h, ih]

theorem HashMap.containsKey_iff {κ ν : Type} [DecidableEq κ]
    (m : HashMap κ ν) (k : κ) :
    m.containsKey k = true ↔ k ∈ m.keys := by
  simp [HashMap.containsKey, HashMap.keys, List.any_eq_true]

theorem HashMap.insert_entries {κ ν : Type} [DecidableEq κ]
    (m : HashMap κ ν) (k : κ) (v : ν) :
    (m.insert k v).entries =
      if k ∈ m.keys then
        m.entries.map (fun p => if p.1 = k then (p.1, v) else p)
      else m.entries ++ [(k, v)] := by
  unfold HashMap.insert
  by_cases hc : m.containsKey k = true
  · rw [if_pos hc, if_pos ((m.containsKey_iff k).1 hc)]
  · have hk : k ∉ m.keys := fun hm => hc ((m.containsKey_iff k).2 hm)
    rw [if_neg hc, if_neg hk]
    by_cases h2 : m.len < m.cap
    · rw [if_pos h2]
    · rw [if_neg h2]

theorem HashMap.keys_insert {κ ν : Type} [DecidableEq κ]
    (m : HashMap κ ν) (k : κ) (v : ν) :
    (m.insert k v).keys = if k ∈ m.keys then m.keys else m.keys ++ [k] := by
  show (m.insert k v).entries.map Prod.fst = _
  rw [HashMap.insert_entries]
  by_cases h : k ∈ m.keys
  · rw [if_pos h, if_pos h, map_update_fst]
    rfl
  · rw [if_neg h, if_neg h, List.map_append]
    rfl

theorem HashMap.mem_keys_insert {κ ν : Type} [DecidableEq κ]
    (m : HashMap κ ν) (k : κ) (v : ν) (a : κ) :
    a ∈ (m.insert k v).keys ↔ a = k ∨ a ∈ m.keys := by
  rw [HashMap.keys_insert]
  by_cases h : k ∈ m.keys
  · rw [if_pos h]
    constructor
    · exact Or.inr
    · rintro (rfl | hm)
      exacts [h, hm]
  · rw [if_neg h]
    simp [or_comm]

theorem HashMap.insert_wf {κ ν : Type} [DecidableEq κ]
    (m : HashMap κ ν) (hwf : m.WF) (k : κ) (v : ν) : (m.insert k v).WF := by
  unfold HashMap.WF
  rw [HashMap.keys_insert]
  by_cases h : k ∈ m.keys
  · rw [if_pos h]
    exact hwf
  · rw [if_neg h, List.nodup_append]
    refine ⟨hwf, List.nodup_singleton k, ?_⟩
    intro a ha hb
    simp only [List.mem_singleton] at hb
    subst hb
    exact h ha

theorem HashMap.len_insert {κ ν : Type} [DecidableEq κ]
    (m : HashMap κ ν) (k : κ) (v : ν) :
    (m.insert k v).len = if k ∈ m.keys then m.len else m.len + 1 := by
  show (m.insert k v).entries.length = _
  rw [HashMap.insert_entries]
  by_cases h : k ∈ m.keys
  · rw [if_pos h, if_pos h, List.length_map]
    rfl
  · rw [if_neg h, if_neg h, List.length_append]
    rfl

theorem HashMap.insert_stable {κ ν : Type} [DecidableEq κ]
    (m : HashMap κ ν) (k : κ) (v : ν) (h : m.len < m.cap) :
    (m.insert k v).cap = m.cap ∧ (m.insert k v).reallocs = m.reallocs := by
  unfold HashMap.insert
  by_cases hc : m.containsKey k = true
  · rw [if_pos hc]
    exact ⟨rfl, rfl⟩
  · rw [if_neg hc, if_pos h]
    exact ⟨rfl, rfl⟩

theorem HashMap.get?_insert {κ ν : Type} [DecidableEq κ]
    (m : HashMap κ ν) (k : κ) (v : ν) (a : κ) :
    (m.insert k v).get? a = if a = k then some v else m.get? a := by
  show ((m.insert k v).entries.find? fun p => decide (p.1 = a)).map Prod.snd = _
  rw [HashMap.insert_entries]
  by_cases h : k ∈ m.keys
  · rw [if_pos h, List.find?_map]
    have hp : ((fun p => decide (p.1 = a)) ∘
        fun p : κ × ν => if p.1 = k then (p.1, v) else p) =
        fun p : κ × ν => decide (p.1 = a) := by
      funext p
      by_cases hpk : p.1 = k <;> simp [hpk]
    rw [hp]
    by_cases hk : a = k
    · subst hk
      rw [if_pos rfl]
      cases hfind : m.entries.find? (fun p => decide (p.1 = a)) with
      | none =>
        exfalso
        rw [List.find?_eq_none] at hfind
        obtain ⟨p, hp1, hp2⟩ :=
          List.mem_map.1 (show a ∈ m.entries.map Prod.fst from h)
        exact hfind p hp1 (by simp [hp2])
      | some b =>
        have hb : b.1 = a := by simpa using List.find?_some hfind
        simp [hb]
    · rw [if_neg hk]
      cases hfind : m.entries.find? (fun p => decide (p.1 = a)) with
      | none => simp [HashMap.get?, hfind]
      | some b =>
        have hb : b.1 = a := by simpa using List.find?_some hfind
        simp [HashMap.get?, hfind, hb, hk]
  · rw [if_neg h, List.find?_append]
    by_cases hk : a = k
    · have hnone : (m.entries.find? fun p => decide (p.1 = a)) = none := by
        rw [List.find?_eq_none]
        intro p hp hpa
        rw [decide_eq_true_eq] at hpa
        apply h
        show k ∈ m.entries.map Prod.fst
        rw [← hk, ← hpa]
        exact List.mem_map_of_mem Prod.fst hp
      have hone : (([(k, v)] : List (κ × ν)).find? fun p => decide (p.1 = a)) =
          some (k, v) := by
        apply List.find?_cons_of_pos
        simp [hk]
      rw [hnone, hone, if_pos hk]
      rfl
    · have hone : (([(k, v)] : List (κ × ν)).find? fun p => decide (p.1 = a)) =
          none := by
        rw [List.find?_eq_none]
        intro p hp hpa
        rw [decide_eq_true_eq] at hpa
        simp only [List.mem_singleton] at hp
        subst hp
        exact hk (by rw [← hpa])
      rw [hone, if_neg hk]
      simp [HashMap.get?]

theorem insertFold_wf {κ ν : Type} [DecidableEq κ] (l : List (κ × ν))
    (m : HashMap κ ν) (hwf : m.WF) : (insertFold m l).WF := by
  induction l generalizing m with
  | nil => exact hwf
  | cons p rest ih => exact ih (m.insert p.1 p.2) (m.insert_wf hwf p.1 p.2)

theorem get?_insertFold {κ ν : Type} [DecidableEq κ] (l : List (κ × ν))
    (m : HashMap κ ν) (k : κ) :
    (insertFold m l).get? k =
      match lastLookup l k with
      | some v => some v
      | none => m.get? k := by
  induction l generalizing m with
  | nil => rfl
  | cons p rest ih =>
    show (insertFold (m.insert p.1 p.2) rest).get? k = _
    rw [ih]
    cases hll : lastLookup rest k with
    | some v => simp [lastLookup, hll]
    | none =>
      by_cases hk : p.1 = k
      · simp [lastLookup, hll, hk, HashMap.get?_insert]
      · have hk2 : ¬ k = p.1 := fun hh => hk hh.symm
        simp [lastLookup, hll, hk, hk2, HashMap.get?_insert]

theorem mem_keys_insertFold {κ ν : Type} [DecidableEq κ] (l : List (κ × ν))
    (m : HashMap κ ν) (k : κ) :
    k ∈ (insertFold m l).keys ↔ k ∈ m.keys ∨ k ∈ l.map Prod.fst := by
  induction l generalizing m with
  | nil => simp [insertFold]
  | cons p rest ih =>
    show k ∈ (insertFold (m.insert p.1 p.2) rest).keys ↔ _
    rw [ih, HashMap.mem_keys_insert]
    simp only [List.map_cons, List.mem_cons]
    tauto

theorem len_insertFold {κ ν : Type} [DecidableEq κ] (l : List (κ × ν))
    (m : HashMap κ ν) (hwf : m.WF) :
    (insertFold m l).len =
      (m.keys.toFinset ∪ (l.map Prod.fst).toFinset).card := by
  have hnodup : (insertFold m l).keys.Nodup := insertFold_wf l m hwf
  have h1 : (insertFold m l).len = (insertFold m l).keys.length :=
    (List.length_map (insertFold m l).entries Prod.fst).symm
  rw [h1, ← List.toFinset_card_of_nodup hnodup]
  congr 1
  ext a
  simp [mem_keys_insertFold]

theorem insertFold_stable {κ ν : Type} [DecidableEq κ] (l : List (κ × ν))
    (m : HashMap κ ν) (h : m.len + l.length ≤ m.cap) :
    (insertFold m l).cap = m.cap ∧
    (insertFold m l).reallocs = m.reallocs := by
  induction l generalizing m with
  | nil => exact ⟨rfl, rfl⟩
  | cons p rest ih =>
    have hlt : m.len < m.cap := by
      simp only [List.length_cons] at h
      omega
    have hs := m.insert_stable p.1 p.2 hlt
    have hlen : (m.insert p.1 p.2).len ≤ m.len + 1 := by
      rw [HashMap.len_insert]
      split <;> omega
    have hrec := ih (m.insert p.1 p.2) (by
      rw [hs.1]
      simp only [List.length_cons] at h
      omega)
    refine ⟨?_, ?_⟩
    · show (insertFold (m.insert p.1 p.2) rest).cap = m.cap
      rw [hrec.1, hs.1]
    · show (insertFold (m.insert p.1 p.2) rest).reallocs = m.reallocs
      rw [hrec.2, hs.2]

theorem len_insertFold_le {κ ν : Type} [DecidableEq κ] (l : List (κ × ν))
    (m : HashMap κ ν) : (insertFold m l).len ≤ m.len + l.length := by
  induction l generalizing m with
  | nil => simp [insertFold]
  | cons p rest ih =>
    have h1 := ih (m.insert p.1 p.2)
    have h2 : (m.insert p.1 p.2).len ≤ m.len + 1 := by
      rw [HashMap.len_insert]
      split <;> omega
    calc (insertFold m (p :: rest)).len
        = (insertFold (m.insert p.1 p.2) rest).len := rfl
      _ ≤ (m.insert p.1 p.2).len + rest.length := h1
      _ ≤ m.len + 1 + rest.length := by omega
      _ = m.len + (p :: rest).length := by
          simp only [List.length_cons]
          omega

theorem insertAll_eq_insertFold {σ κ ν : Type} [DecidableEq κ]
    (ps : List (Expr σ κ × Expr σ ν)) (m : HashMap κ ν) (s : σ) :
    insertAll m ps s = (insertFold m (evalPairs ps s).1, (evalPairs ps s).2) := by
  induction ps generalizing m s with
  | nil => rfl
  | cons p rest ih =>
    obtain ⟨ke, ve⟩ := p
    show insertAll (m.insert (ke s).1 (ve (ke s).2).1) rest (ve (ke s).2).2 = _
    rw [ih]
    rfl

theorem evalPairs_length {σ κ ν : Type} (ps : List (Expr σ κ × Expr σ ν))
    (s : σ) : (evalPairs ps s).1.length = ps.length := by
  induction ps generalizing s with
  | nil => rfl
  | cons p rest ih =>
    obtain ⟨ke, ve⟩ := p
    show (((ke s).1, (ve (ke s).2).1) ::
      (evalPairs rest (ve (ke s).2).2).1).length = rest.length + 1
    rw [List.length_cons, ih]

theorem lastLookup_eq_none {κ ν : Type} [DecidableEq κ] (l : List (κ × ν))
    (k : κ) (h : k ∉ l.map Prod.fst) : lastLookup l k = none := by
  induction l with
  | nil => rfl
  | cons p rest ih =>
    simp only [List.map_cons, List.mem_cons] at h
    push_neg at h
    show (match lastLookup rest k with
      | some v => some v
      | none => if p.1 = k then some p.2 else none) = none
    rw [ih h.2]
    exact if_neg fun hh => h.1 hh.symm

theorem lastLookup_of_nodup {κ ν : Type} [DecidableEq κ] (l : List (κ × ν))
    (hnd : (l.map Prod.fst).Nodup) (p : κ × ν) (hp : p ∈ l) :
    lastLookup l p.1 = some p.2 := by
  induction l with
  | nil => cases hp
  | cons q rest ih =>
    simp only [List.map_cons, List.nodup_cons] at hnd
    rcases List.mem_cons.1 hp with rfl | hmem
    · have hnone := lastLookup_eq_none rest p.1 hnd.1
      simp [lastLookup, hnone]
    · have hrec := ih hnd.2 hmem
      simp [lastLookup, hrec]

/-- C5: for a map literal whose keys evaluate to pairwise distinct
values, the resulting mapping has length `N`, each key looks up its
paired value, and the final state shows every key and value expression
was evaluated exactly once, in declaration order. -/
theorem dict_distinct_keys {σ κ ν : Type} [DecidableEq κ]
    (ps : List (Expr σ κ × Expr σ ν)) (s : σ)
    (h : ((evalPairs ps s).1.map Prod.fst).Nodup) :
    (dictExpand ps s).1.len = ps.length ∧
    (∀ p ∈ (evalPairs ps s).1, (dictExpand ps s).1.get? p.1 = some p.2) ∧
    (dictExpand ps s).2 = (evalPairs ps s).2 := by
  have hd : dictExpand ps s =
      (insertFold (HashMap.withCapacity (count (ps.map Prod.fst)))
        (evalPairs ps s).1, (evalPairs ps s).2) :=
    insertAll_eq_insertFold ps (HashMap.withCapacity (count (ps.map Prod.fst))) s
  have hwf : (HashMap.withCapacity (count (ps.map Prod.fst)) : HashMap κ ν).WF :=
    List.nodup_nil
  rw [hd]
  refine ⟨?_, ?_, rfl⟩
  · show (insertFold (HashMap.withCapacity (count (ps.map Prod.fst)))
      (evalPairs ps s).1).len = ps.length
    rw [len_insertFold _ _ hwf]
    have hk : (HashMap.withCapacity (count (ps.map Prod.fst)) :
        HashMap κ ν).keys = [] := rfl
    rw [hk]
    simp only [List.toFinset_nil, Finset.empty_union]
    rw [List.toFinset_card_of_nodup h, List.length_map, evalPairs_length]
  · intro p hp
    have hl := lastLookup_of_nodup (evalPairs ps s).1 h p hp
    show (insertFold (HashMap.withCapacity (count (ps.map Prod.fst)))
      (evalPairs ps s).1).get? p.1 = some p.2
    rw [get?_insertFold, hl]

/-- Witness for C5 at a concrete two-pair literal with distinct keys. -/
theorem dict_distinct_keys_witness :
    (((evalPairs distinctPairs ()).1.map Prod.fst).Nodup) ∧
    (dictExpand distinctPairs ()).1.len = distinctPairs.length ∧
    (dictExpand distinctPairs ()).1.get? 1 = some 10 :=
  ⟨by decide, (dict_distinct_keys distinctPairs () (by decide)).1,
    (dict_distinct_keys distinctPairs () (by decide)).2.1 (1, 10) (by decide)⟩

/-- C6: for a map literal with duplicate keys, the later insertion
overwrites the earlier value (last-write-wins lookup) and the mapping's
length equals the number of distinct evaluated keys. -/
theorem dict_duplicate_keys {σ κ ν : Type} [DecidableEq κ]
    (ps : List (Expr σ κ × Expr σ ν)) (s : σ)
    (_hdup : ¬ ((evalPairs ps s).1.map Prod.fst).Nodup) :
    (dictExpand ps s).1.len = ((evalPairs ps s).1.map Prod.fst).dedup.length ∧
    ∀ k : κ, (dictExpand ps s).1.get? k = lastLookup (evalPairs ps s).1 k := by
  have hd : dictExpand ps s =
      (insertFold (HashMap.withCapacity (count (ps.map Prod.fst)))
        (evalPairs ps s).1, (evalPairs ps s).2) :=
    insertAll_eq_insertFold ps (HashMap.withCapacity (count (ps.map Prod.fst))) s
  have hwf : (HashMap.withCapacity (count (ps.map Prod.fst)) : HashMap κ ν).WF :=
    List.nodup_nil
  rw [hd]
  constructor
  · show (insertFold (HashMap.withCapacity (count (ps.map Prod.fst)))
      (evalPairs ps s).1).len = _
    rw [len_insertFold _ _ hwf]
    have hk : (HashMap.withCapacity (count (ps.map Prod.fst)) :
        HashMap κ ν).keys = [] := rfl
    rw [hk]
    simp only [List.toFinset_nil, Finset.empty_union]
    exact List.card_toFinset _
  · intro k
    show (insertFold (HashMap.withCapacity (count (ps.map Prod.fst)))
      (evalPairs ps s).1).get? k = _
    rw [get?_insertFold]
    cases hll : lastLookup (evalPairs ps s).1 k with
    | some v => rfl
    | none => rfl

/-- Witness for C6 at a concrete literal whose two keys both evaluate
to 1: the map has one entry and the lookup yields the later value 20. -/
theorem dict_duplicate_keys_witness :
    ¬ (((evalPairs dupPairs ()).1.map Prod.fst).Nodup) ∧
    (dictExpand dupPairs ()).1.len =
      ((evalPairs dupPairs ()).1.map Prod.fst).dedup.length ∧
    (dictExpand dupPairs ()).1.get? 1 = some 20 :=
  ⟨by decide, (dict_duplicate_keys dupPairs () (by decide)).1,
    ((dict_duplicate_keys dupPairs () (by decide)).2 1).trans (by decide)⟩

/-- C7: the trailing-comma forms of `avec!` and `dict!` delegate to the
same expansion as their non-trailing counterparts, so the results are
identical in length, order and contents. -/
theorem trailing_comma_delegates {σ α κ ν : Type} [DecidableEq κ]
    (es : List (Expr σ α)) (ps : List (Expr σ κ × Expr σ ν)) (s t : σ) :
    avecListTrailing es s = avecList es s ∧
    dictExpandTrailing ps t = dictExpand ps t :=
  ⟨rfl, rfl⟩

/-- C8: in every expansion the container's capacity at construction
equals the count constant (list and map forms) or the bound repeat
count, and no reallocation occurs while the container is populated. -/
theorem capacity_exact_no_realloc {σ α κ ν : Type} [DecidableEq κ]
    (es : List (Expr σ α)) (cnt : Expr σ Nat) (elem : Expr σ α)
    (ps : List (Expr σ κ × Expr σ ν)) (s t u : σ) :
    ((avecList es s).1.cap = count es ∧ (avecList es s).1.reallocs = 0) ∧
    ((avecRepeat cnt elem t).1.cap = (cnt t).1 ∧
      (avecRepeat cnt elem t).1.reallocs = 0) ∧
    ((dictExpand ps u).1.cap = count (ps.map Prod.fst) ∧
      (dictExpand ps u).1.reallocs = 0) := by
  refine ⟨?_, ?_, ?_⟩
  · have hs := pushAll_stable es (Vec.withCapacity (count es)) s (by
      show (0 : Nat) + es.length ≤ count es
      rw [count_eq_length]
      omega)
    exact ⟨hs.1, hs.2⟩
  · have h := resize_withCapacity ((cnt t).1) ((elem (cnt t).2).1)
    show ((Vec.withCapacity (cnt t).1).resize (cnt t).1
      (elem (cnt t).2).1).cap = (cnt t).1 ∧
      ((Vec.withCapacity (cnt t).1).resize (cnt t).1
        (elem (cnt t).2).1).reallocs = 0
    rw [h]
    exact ⟨rfl, rfl⟩
  · have hstable := insertFold_stable (evalPairs ps u).1
      (HashMap.withCapacity (count (ps.map Prod.fst))) (by
        show (0 : Nat) + (evalPairs ps u).1.length ≤ count (ps.map Prod.fst)
        rw [evalPairs_length, count_eq_length, List.length_map]
        omega)
    have hd : dictExpand ps u =
        (insertFold (HashMap.withCapacity (count (ps.map Prod.fst)))
          (evalPairs ps u).1, (evalPairs ps u).2) :=
      insertAll_eq_insertFold ps (HashMap.withCapacity (count (ps.map Prod.fst))) u
    rw [hd]
    exact ⟨hstable.1, hstable.2⟩

/-- C9: the three expansions are total on every valid input, including
the zero-element case: the length of the result is always the one the
count or the bound repeat value dictates, so the counting and population
logic has no failure path. -/
theorem no_panic_all_forms {σ α κ ν : Type} [DecidableEq κ]
    (es : List (Expr σ α)) (cnt : Expr σ Nat) (elem : Expr σ α)
    (ps : List (Expr σ κ × Expr σ ν)) (s t u : σ) :
    (avecList es s).1.data.length = count es ∧
    (avecRepeat cnt elem t).1.data.length = (cnt t).1 ∧
    (dictExpand ps u).1.len ≤ ps.length ∧
    (avecList ([] : List (Expr σ α)) s).1.data = [] ∧
    (dictExpand ([] : List (Expr σ κ × Expr σ ν)) u).1.len = 0 := by
  refine ⟨?_, ?_, ?_, rfl, rfl⟩
  · have h := (pushAll_data_state es (Vec.withCapacity (count es)) s).1
    show (pushAll (Vec.withCapacity (count es)) es s).1.data.length = count es
    rw [h, count_eq_length]
    simp [Vec.withCapacity, evalAll_length]
  · have h := resize_withCapacity ((cnt t).1) ((elem (cnt t).2).1)
    show ((Vec.withCapacity (cnt t).1).resize (cnt t).1
      (elem (cnt t).2).1).data.length = (cnt t).1
    rw [h]
    simp
  · have hd : dictExpand ps u =
        (insertFold (HashMap.withCapacity (count (ps.map Prod.fst)))
          (evalPairs ps u).1, (evalPairs ps u).2) :=
      insertAll_eq_insertFold ps (HashMap.withCapacity (count (ps.map Prod.fst))) u
    rw [hd]
    have hle := len_insertFold_le (evalPairs ps u).1
      (HashMap.withCapacity (count (ps.map Prod.fst)))
    have hlen := evalPairs_length ps u
    have h0 : (HashMap.withCapacity (count (ps.map Prod.fst)) :
        HashMap κ ν).len = 0 := rfl
    show (insertFold (HashMap.withCapacity (count (ps.map Prod.fst)))
      (evalPairs ps u).1).len ≤ ps.length
    omega

/-- C10: in the repeat form `avec![e; n]`, the element expression is
evaluated exactly once even when the bound count is 0: the sequence is
empty, yet the final state carries exactly one evaluation of `e`. -/
theorem avecRepeat_elem_eval_at_zero {σ α : Type} (cnt : Expr σ Nat)
    (elem : Expr σ α) (s : σ) (hc : (cnt s).1 = 0) :
    (avecRepeat cnt elem s).1.data = [] ∧
    (avecRepeat cnt elem s).2 = (elem (cnt s).2).2 := by
  unfold avecRepeat
  simp [resize_withCapacity, hc]

/-- Witness for C10: a count expression evaluating to 0 and an element
expression that bumps a counter; the result is empty and the counter
shows the element was evaluated exactly once. -/
theorem avecRepeat_elem_eval_at_zero_witness :
    (zeroCnt 0).1 = 0 ∧
    (avecRepeat zeroCnt bumpElem 0).1.data = [] ∧
    (avecRepeat zeroCnt bumpElem 0).2 = 1 :=
  ⟨by decide, (avecRepeat_elem_eval_at_zero zeroCnt bumpElem 0 (by decide)).1,
    ((avecRepeat_elem_eval_at_zero zeroCnt bumpElem 0 (by decide)).2).trans
      (by decide)⟩
